import Mathlib

/-!
Verification of the sparkie decision-engine core.

Shallow embedding of:
* `src/evaluation/eval_metrics_v2.py` — `_normalize_clause`,
  `_compute_clause_match_score`, `_grade_citation_accuracy`, and the
  conditional-risk metric of `_evaluate_kg_metrics`;
* `src/app/sparkie_engine.py` — `_kg_rerank_candidates`,
  `_apply_quota_selection` and their constants.

Modelling conventions:
* Python `str` is modelled as `List Char` where the code splits and
  rebuilds strings, and as Lean `String` where only equality tests occur.
* Python `float` is modelled as `ℚ`: the code only assigns decimal
  literals, adds them, and compares, so exact rationals are faithful.
* Python functions raise no exceptions on the modelled paths; fallible
  results are `Option`.
-/

namespace Sparkie

/-- Clause strings (Python `str` viewed as a character sequence). -/
abbrev Str := List Char

/-- Python `s.split(sep)` for a single-character separator: splits at every
occurrence of `sep`, keeping empty pieces, and yields `[""]` on `""`. -/
def splitSep (sep : Char) : Str → List Str
  | [] => [[]]
  | c :: cs =>
    if c = sep then [] :: splitSep sep cs
    else
      match splitSep sep cs with
      | [] => [[c]]
      | s :: ss => (c :: s) :: ss

/-- Inverse of `splitSep`: joins pieces with the separator (Python
`sep.join(pieces)`). Used only on the specification side. -/
def joinSep (sep : Char) : List Str → Str
  | [] => []
  | [s] => s
  | s :: rest => s ++ sep :: joinSep sep rest

/-- Python `s.strip()`: remove leading and trailing whitespace. -/
def pyStrip (s : Str) : Str :=
  ((s.dropWhile Char.isWhitespace).reverse.dropWhile Char.isWhitespace).reverse

/-- `re.sub(r'[^\d.]', '', s)`: keep only digits and dots. -/
def keepDigitsDots (s : Str) : Str :=
  s.filter (fun ch => ch.isDigit || ch = '.')

/-- Helper for `collapseDots`: the flag records whether the previous kept
character was a dot; a dot directly following a dot is dropped. -/
def collapseDotsAux : Bool → Str → Str
  | _, [] => []
  | prevDot, c :: cs =>
    if c = '.' then
      if prevDot then collapseDotsAux true cs
      else '.' :: collapseDotsAux true cs
    else c :: collapseDotsAux false cs

/-- `re.sub(r'\.{2,}', '.', s)`: collapse each run of consecutive dots to a
single dot (runs of length one are unchanged, so the net effect is that
every maximal dot run becomes one dot). -/
def collapseDots (s : Str) : Str := collapseDotsAux false s

/-- Python `s.strip('.')`: remove leading and trailing dots. -/
def stripDotsEnds (s : Str) : Str :=
  ((s.dropWhile (fun ch => ch = '.')).reverse.dropWhile (fun ch => ch = '.')).reverse

/-- The validation regex `^\d+(\.\d+)*$`: the string is a nonempty sequence
of dot-separated, nonempty, all-digit segments. -/
def isClauseStr (s : Str) : Bool :=
  (splitSep '.' s).all (fun seg => !seg.isEmpty && seg.all Char.isDigit)

/-- `_normalize_clause` (eval_metrics_v2.py): trim whitespace, keep only
digits and dots, collapse repeated dots, strip boundary dots, validate;
`none` models Python `None`. `if not clause` is the empty-string test. -/
def normalize_clause (clause : Str) : Option Str :=
  if clause.isEmpty then none
  else
    let s1 := pyStrip clause
    let s2 := keepDigitsDots s1
    let s3 := collapseDots s2
    let s4 := stripDotsEnds s3
    if isClauseStr s4 then some s4 else none

/-- Number of dot-separated segments of a clause string
(`len(s.split('.'))`). -/
def clause_depth (s : Str) : Nat := (splitSep '.' s).length

/-- The depth-dependent branch shared by the two prefix cases of
`_compute_clause_match_score`: depth 1 → 0.5, depth 2 → 0.6, depth ≥ 3 →
0.75; `none` models the (unreachable, depth-0) fall-through where the
Python `if/elif` chain returns nothing and control continues. -/
def prefixDepthScore (shorter : Str) : Option ℚ :=
  let d := clause_depth shorter
  if d = 1 then some (1/2)
  else if d = 2 then some (3/5)
  else if 3 ≤ d then some (3/4)
  else none

/-- `_compute_clause_match_score` (eval_metrics_v2.py). Exact match 1.0;
`expected.startswith(cited + '.')` → depth score of `cited`;
`cited.startswith(expected + '.')` → depth score of `expected`; same first
segment → 0.3; else 0.0. -/
def compute_clause_match_score (cited expected : Str) : ℚ :=
  if cited = expected then 1
  else
    match (if List.isPrefixOf (cited ++ ['.']) expected then prefixDepthScore cited else none) with
    | some sc => sc
    | none =>
      match (if List.isPrefixOf (expected ++ ['.']) cited then prefixDepthScore expected else none) with
      | some sc => sc
      | none =>
        if (splitSep '.' cited).headI = (splitSep '.' expected).headI then 3/10 else 0

/-- Result record of `_grade_citation_accuracy`. The diagnostics string
`citation_details` is free-form logging text and is not modelled. -/
structure GradeResult where
  citation_accuracy : ℚ
  correct_clause_ref : Bool
deriving Repr, DecidableEq

/-- Python truthiness filter `[e for e in lst if e]` over optional strings:
`None` and the empty string are dropped. -/
def truthyFilter (l : List (Option Str)) : List Str :=
  l.filterMap (fun e =>
    match e with
    | none => none
    | some s => if s.isEmpty then none else some s)

/-- The normalized expected-clause set: split the expected string on commas,
strip each piece, normalize, drop failures
(`[self._normalize_clause(e.strip()) for e in expected_clause.split(',')]`
followed by the truthiness filter). -/
def expectedSetOf (expected_clause : Str) : List Str :=
  truthyFilter (((splitSep ',' expected_clause).map pyStrip).map normalize_clause)

/-- The normalized cited-clause set
(`[self._normalize_clause(c) for c in cited_clauses]`, truthiness filter). -/
def citedSetOf (cited_clauses : List Str) : List Str :=
  truthyFilter (cited_clauses.map normalize_clause)

/-- The inner loop of `_grade_citation_accuracy`: best match score of one
cited clause against all expected clauses, tracked with `score > best_score`
starting from `0.0`. -/
def best_match_score (expected_set : List Str) (cited : Str) : ℚ :=
  expected_set.foldl (fun best e =>
    let s := compute_clause_match_score cited e
    if best < s then s else best) 0

/-- Python `max(l) if l else dflt`. -/
def pyListMax (l : List ℚ) (dflt : ℚ) : ℚ :=
  match l with
  | [] => dflt
  | x :: xs => xs.foldl max x

/-- `_grade_citation_accuracy` (eval_metrics_v2.py). `expected_clause` is
`Optional[str]`; `if not cited_clauses`, `if not expected_clause` and the
two empty-set checks are modelled in source order. -/
def grade_citation_accuracy (cited_clauses : List Str) (expected_clause : Option Str) :
    GradeResult :=
  if cited_clauses.isEmpty then ⟨0, false⟩
  else
    match expected_clause with
    | none => ⟨1/2, false⟩
    | some ec =>
      if ec.isEmpty then ⟨1/2, false⟩
      else
        let expected_set := expectedSetOf ec
        if expected_set.isEmpty then ⟨1/2, false⟩
        else
          let cited_set := citedSetOf cited_clauses
          if cited_set.isEmpty then ⟨0, false⟩
          else
            let match_scores := cited_set.map (best_match_score expected_set)
            let acc := pyListMax match_scores 0
            ⟨acc, decide (3/4 ≤ acc)⟩

/-! ### The rerank / quota-selection engine (sparkie_engine.py) -/

def KG_FINAL_K : Nat := 20
def KG_BOOST_A : ℚ := 15/100
def KG_BOOST_B : ℚ := 5/100
def KG_PENALTY_C : ℚ := -(10/100)
def KG_NEUTRAL_UNKNOWN : ℚ := 0
def MIN_NORMATIVE_TEXT : Nat := 4
def MAX_NON_NORMATIVE_TEXT : Nat := 2
def MIN_UNKNOWN_NONTEXT : Nat := 2

/-- A retrieval candidate. The source carries the fields below plus several
payload fields (TEXT_CONTENT, VISUAL_URL, PAGE_NUMBER, ...) that the rerank
and quota logic copies verbatim and never reads; only the fields the logic
reads or writes are modelled, with `CONTENT_ID` standing for the payload's
identity. -/
structure Candidate where
  CONTENT_ID : String
  CONTENT_TYPE : String
  KG_CLASS : String
  SIMILARITY : ℚ
  RANK : Nat
  RERANK_SCORE : ℚ
  KG_BOOST : ℚ
deriving Repr, DecidableEq

/-- The boost/penalty branch of `_kg_rerank_candidates`: text chunks get the
class-dependent adjustment, everything else (tables/visuals) is neutral. -/
def kg_boost_of (c : Candidate) : ℚ :=
  if c.CONTENT_TYPE = "text_chunk" then
    if c.KG_CLASS = "A" then KG_BOOST_A
    else if c.KG_CLASS = "B" then KG_BOOST_B
    else if c.KG_CLASS = "C" then KG_PENALTY_C
    else KG_NEUTRAL_UNKNOWN
  else KG_NEUTRAL_UNKNOWN

/-- The per-candidate body of the rerank loop: the source rebuilds the
candidate object copying every field and setting
`RERANK_SCORE = similarity + kg_boost` and `KG_BOOST = kg_boost`. -/
def rerankOne (c : Candidate) : Candidate :=
  { c with RERANK_SCORE := c.SIMILARITY + kg_boost_of c, KG_BOOST := kg_boost_of c }

/-- The comparison of `list.sort(key=lambda x: x.RERANK_SCORE, reverse=True)`:
Python's sort is stable, so it equals a stable merge sort with
`a` before `b` iff `b.RERANK_SCORE ≤ a.RERANK_SCORE`. -/
def rerankLE (a b : Candidate) : Bool := decide (b.RERANK_SCORE ≤ a.RERANK_SCORE)

/-- The `item.RANK = i + 1` renumbering loop (`enumerate` starts at 0). -/
def renumberFrom (i : Nat) : List Candidate → List Candidate
  | [] => []
  | c :: cs => { c with RANK := i + 1 } :: renumberFrom (i + 1) cs

/-- `_kg_rerank_candidates` (sparkie_engine.py): empty guard, per-candidate
rescore, stable descending sort by `RERANK_SCORE`, rank renumbering. -/
def kg_rerank_candidates (candidates : List Candidate) : List Candidate :=
  if candidates.isEmpty then []
  else
    let reranked := candidates.map rerankOne
    let sorted := reranked.mergeSort rerankLE
    renumberFrom 0 sorted

/-- The bucket loop of `_apply_quota_selection`, in source order: text with
class A or B → normative; text with class C → non-normative; text with any
other class → normative (defensive default); non-text → unknown non-text.
Returns (normative_text, non_normative_text, unknown_nontext). -/
def categorize : List Candidate → List Candidate × List Candidate × List Candidate
  | [] => ([], [], [])
  | c :: rest =>
    let p := categorize rest
    if c.CONTENT_TYPE = "text_chunk" then
      if c.KG_CLASS = "A" ∨ c.KG_CLASS = "B" then (c :: p.1, p.2.1, p.2.2)
      else if c.KG_CLASS = "C" then (p.1, c :: p.2.1, p.2.2)
      else (c :: p.1, p.2.1, p.2.2)
    else (p.1, p.2.1, c :: p.2.2)

/-- The `normative_text` bucket local of `_apply_quota_selection`. -/
def normativeTextOf (l : List Candidate) : List Candidate := (categorize l).1

/-- The `non_normative_text` bucket local of `_apply_quota_selection`. -/
def nonNormativeTextOf (l : List Candidate) : List Candidate := (categorize l).2.1

/-- The `unknown_nontext` bucket local of `_apply_quota_selection`. -/
def unknownNontextOf (l : List Candidate) : List Candidate := (categorize l).2.2

/-- `normative_to_add = min(MIN_NORMATIVE_TEXT, len(normative_text))`. -/
def normativeToAdd (l : List Candidate) : Nat :=
  min MIN_NORMATIVE_TEXT (normativeTextOf l).length

/-- `unknown_to_add = min(MIN_UNKNOWN_NONTEXT, len(unknown_nontext))`. -/
def unknownToAdd (l : List Candidate) : Nat :=
  min MIN_UNKNOWN_NONTEXT (unknownNontextOf l).length

/-- `final_selection` after quota steps 1 and 2: the first
`normative_to_add` normative-text items, then the first `unknown_to_add`
non-text items. -/
def quotaBase (l : List Candidate) : List Candidate :=
  (normativeTextOf l).take (normativeToAdd l) ++
    (unknownNontextOf l).take (unknownToAdd l)

/-- `remaining_slots = KG_FINAL_K - len(final_selection)`. A Python `int`;
it is never negative here (the two quota steps add at most `4 + 2 = 6 <
KG_FINAL_K = 20` items), so `Nat` subtraction is faithful and
`0 < remaining_slots` matches `remaining_slots > 0`. -/
def remainingSlots (l : List Candidate) : Nat :=
  KG_FINAL_K - (quotaBase l).length

/-- `remaining_candidates`: unconsumed normative-text tail, unconsumed
non-text tail, and at most `MAX_NON_NORMATIVE_TEXT` class-C text items. -/
def quotaPool (l : List Candidate) : List Candidate :=
  (normativeTextOf l).drop (normativeToAdd l) ++
    (unknownNontextOf l).drop (unknownToAdd l) ++
    (nonNormativeTextOf l).take MAX_NON_NORMATIVE_TEXT

/-- `final_selection` after the fill step: if slots remain, append the best
`remaining_slots` pool items by rerank score (stable descending sort). -/
def quotaFilled (l : List Candidate) : List Candidate :=
  if 0 < remainingSlots l then
    quotaBase l ++ ((quotaPool l).mergeSort rerankLE).take (remainingSlots l)
  else quotaBase l

/-- `_apply_quota_selection` (sparkie_engine.py): empty guard, bucket
partition, quota steps, fill step, final stable descending sort by rerank
score, rank renumbering. -/
def apply_quota_selection (reranked_candidates : List Candidate) : List Candidate :=
  if reranked_candidates.isEmpty then []
  else renumberFrom 0 ((quotaFilled reranked_candidates).mergeSort rerankLE)

/-! ### The conditional-risk coverage metric (eval_metrics_v2.py) -/

/-- One element of `retrieved_context` as read by `_evaluate_kg_metrics`:
`item.get('content_id')`, `item.get('kg_class', 'UNKNOWN')`,
`item.get('content_type', 'unknown')`. -/
structure RetrievedItem where
  content_id : String
  kg_class : String
  content_type : String
deriving Repr, DecidableEq

/-- The citation-mapping loop of `_evaluate_kg_metrics`: each cited
content id is looked up in `retrieved_context` (first match, `break`) and
contributes that item's KG class; unmatched ids contribute nothing. The
source accumulates these in the `cited_kg_classes` counter dict; counting
occurrences in this list yields the same counts. -/
def cited_classes (retrieved : List RetrievedItem) (cited_ids : List String) : List String :=
  cited_ids.filterMap (fun cid =>
    (retrieved.find? (fun it => it.content_id == cid)).map RetrievedItem.kg_class)

/-- METRIC 3 (Conditional Risk Indicator) of `_evaluate_kg_metrics`.
`has_conditional_language` abstracts the source's lexical cue check
`any(re.search(p, answer, re.IGNORECASE) for p in conditional_language_patterns)`
(the `re` engine is an external collaborator); the claim is proved for every
value of that check. `b_chunks_cited`, `b_chunks_retrieved` and
`total_cited` are the counter values the source computes. -/
def kg_conditional_risk (retrieved : List RetrievedItem) (cited_ids : List String)
    (has_conditional_language : Bool) : ℚ :=
  let b_chunks_cited := (cited_classes retrieved cited_ids).count "B"
  let b_chunks_retrieved := (retrieved.map RetrievedItem.kg_class).count "B"
  let total_cited := (cited_classes retrieved cited_ids).length
  if 0 < b_chunks_cited then
    if has_conditional_language then 1 else 0
  else if 0 < b_chunks_retrieved ∧ 0 < total_cited then
    if has_conditional_language then 1 else 1/2
  else 1

/-! ### Specification-side definitions

These follow the spec's words, to be compared with the definitions above. -/

/-- Dot-separated segments of a clause string. -/
def segments (s : Str) : List Str := splitSep '.' s

/-- Spec notion: number of dot-separated segments. -/
def specDepth (s : Str) : Nat := (segments s).length

/-- Spec notion: `c` is a strict dotted-prefix of `e` — the segment list of
`c` is a proper prefix of the segment list of `e`. -/
def IsDottedParent (c e : Str) : Prop := segments c <+: segments e ∧ c ≠ e

instance (c e : Str) : Decidable (IsDottedParent c e) := by
  unfold IsDottedParent
  infer_instance

/-- Spec scoring table for the dotted-prefix case, keyed by the depth of
the shorter clause: depth 1 → 0.5, depth 2 → 0.6, depth ≥ 3 → 0.75. -/
def depthScore (d : Nat) : ℚ := if d = 1 then 1/2 else if d = 2 then 3/5 else 3/4

/-- The ClauseMatcher contract as the spec words it: exact equality 1.0;
strict dotted-prefix in either direction → depth score of the shorter
clause; equal first segments → 0.3; otherwise 0.0. -/
def specClauseScore (c e : Str) : ℚ :=
  if c = e then 1
  else if IsDottedParent c e ∨ IsDottedParent e c then
    depthScore (min (specDepth c) (specDepth e))
  else if (segments c).headI = (segments e).headI then 3/10
  else 0

/-- The Reranker adjustment table as the spec words it: TextChunk A/B/C get
boostA/boostB/penaltyC, TextChunk Unknown gets 0, and non-text items get 0
for every normativity class. -/
def specAdjustment (c : Candidate) : ℚ :=
  if c.CONTENT_TYPE = "text_chunk" ∧ c.KG_CLASS = "A" then KG_BOOST_A
  else if c.CONTENT_TYPE = "text_chunk" ∧ c.KG_CLASS = "B" then KG_BOOST_B
  else if c.CONTENT_TYPE = "text_chunk" ∧ c.KG_CLASS = "C" then KG_PENALTY_C
  else 0

/-- Normative-text bucket membership: a text chunk whose class is not C
(classes A and B, plus the Unknown-treated-as-normative default). -/
def isNormText (c : Candidate) : Bool :=
  c.CONTENT_TYPE == "text_chunk" && !(c.KG_CLASS == "C")

/-- Non-normative-text bucket membership: a text chunk of class C. -/
def isCText (c : Candidate) : Bool :=
  c.CONTENT_TYPE == "text_chunk" && c.KG_CLASS == "C"

/-- Non-text bucket membership: structured tables and visual content. -/
def isNonText (c : Candidate) : Bool := !(c.CONTENT_TYPE == "text_chunk")

/-- Erase the `RANK` field (the one field the engine renumbers in place);
candidate identity across stages is identity modulo `RANK`. -/
def stripRank (c : Candidate) : Candidate := { c with RANK := 0 }

/-- The four-step processing chain of `_normalize_clause` before validation. -/
def processedOf (s : Str) : Str :=
  stripDotsEnds (collapseDots (keepDigitsDots (pyStrip s)))

/-! ### Lemmas on splitting and joining -/

theorem splitSep_ne_nil (sep : Char) (s : Str) : splitSep sep s ≠ [] := by
  cases s with
  | nil => simp [splitSep]
  | cons c cs =>
    simp only [splitSep]
    by_cases h : c = sep
    · simp [h]
    · simp only [if_neg h]
      cases hs : splitSep sep cs <;> simp

theorem exists_cons_splitSep (sep : Char) (s : Str) :
    ∃ t ts, splitSep sep s = t :: ts := by
  cases h : splitSep sep s with
  | nil => exact absurd h (splitSep_ne_nil sep s)
  | cons t ts => exact ⟨t, ts, rfl⟩

theorem splitSep_append (sep : Char) (a b : Str) :
    splitSep sep (a ++ sep :: b) = splitSep sep a ++ splitSep sep b := by
  induction a with
  | nil => simp [splitSep]
  | cons c cs ih =>
    by_cases h : c = sep
    · simp [splitSep, h, ih]
    · obtain ⟨t, ts, hs⟩ := exists_cons_splitSep sep cs
      simp [splitSep, if_neg h, ih, hs]

theorem joinSep_cons (sep : Char) (s : Str) (ss : List Str) (h : ss ≠ []) :
    joinSep sep (s :: ss) = s ++ sep :: joinSep sep ss := by
  cases ss with
  | nil => exact absurd rfl h
  | cons t ts => rfl

theorem joinSep_splitSep (sep : Char) (s : Str) : joinSep sep (splitSep sep s) = s := by
  induction s with
  | nil => simp [splitSep, joinSep]
  | cons c cs ih =>
    obtain ⟨t, ts, hs⟩ := exists_cons_splitSep sep cs
    by_cases h : c = sep
    · rw [show splitSep sep (c :: cs) = [] :: splitSep sep cs by simp [splitSep, h]]
      rw [joinSep_cons sep [] _ (splitSep_ne_nil sep cs), ih]
      simp [h]
    · rw [show splitSep sep (c :: cs) = (c :: t) :: ts by simp [splitSep, if_neg h, hs]]
      cases ts with
      | nil =>
        simp only [joinSep]
        rw [hs] at ih
        simp only [joinSep] at ih
        simp [ih]
      | cons u us =>
        rw [joinSep_cons sep _ _ (by simp)]
        rw [hs] at ih
        rw [joinSep_cons sep _ _ (by simp)] at ih
        simp [← ih]

theorem splitSep_injective (sep : Char) {s t : Str}
    (h : splitSep sep s = splitSep sep t) : s = t := by
  have := joinSep_splitSep sep s
  rw [h, joinSep_splitSep sep t] at this
  exact this.symm

theorem joinSep_append (sep : Char) (A B : List Str) (hA : A ≠ []) (hB : B ≠ []) :
    joinSep sep (A ++ B) = joinSep sep A ++ sep :: joinSep sep B := by
  induction A with
  | nil => exact absurd rfl hA
  | cons a A' ih =>
    cases A' with
    | nil =>
      simp only [List.cons_append, List.nil_append]
      rw [joinSep_cons sep a B hB]
      rfl
    | cons a' A'' =>
      rw [List.cons_append, joinSep_cons sep a _ (by simp),
          joinSep_cons sep a _ (by simp), ih (by simp)]
      simp

/-- The code's startswith test is exactly the spec's strict dotted-prefix
relation (in the parent direction). -/
theorem isPrefixOf_dot_iff (c e : Str) :
    List.isPrefixOf (c ++ ['.']) e = true ↔ IsDottedParent c e := by
  rw [List.isPrefixOf_iff_prefix]
  constructor
  · rintro ⟨t, ht⟩
    have he : e = c ++ '.' :: t := by
      rw [← ht]; simp
    constructor
    · refine ⟨splitSep '.' t, ?_⟩
      rw [he]
      exact (splitSep_append '.' c t).symm
    · intro hce
      apply_fun List.length at he
      simp [hce] at he
  · rintro ⟨⟨t, ht⟩, hne⟩
    simp only [segments] at ht
    have htne : t ≠ [] := by
      rintro rfl
      exact hne (splitSep_injective '.' (by simpa using ht))
    have he : e = c ++ '.' :: joinSep '.' t := by
      have h1 := joinSep_splitSep '.' e
      rw [← ht, joinSep_append '.' _ t (splitSep_ne_nil '.' c) htne,
          joinSep_splitSep '.' c] at h1
      exact h1.symm
    exact ⟨joinSep '.' t, by rw [he]; simp⟩

theorem IsDottedParent.depth_lt {c e : Str} (h : IsDottedParent c e) :
    specDepth c < specDepth e := by
  obtain ⟨hp, hne⟩ := h
  have hle := hp.length_le
  rcases Nat.lt_or_ge (specDepth c) (specDepth e) with h' | h'
  · exact h'
  · exact absurd (splitSep_injective '.' (hp.eq_of_length_le h')) hne

theorem prefixDepthScore_eq (c : Str) :
    prefixDepthScore c = some (depthScore (specDepth c)) := by
  have h1 : 1 ≤ clause_depth c := by
    obtain ⟨t, ts, h⟩ := exists_cons_splitSep '.' c
    simp [clause_depth, h]
  have hd : specDepth c = clause_depth c := rfl
  unfold prefixDepthScore depthScore
  rw [hd]
  by_cases e1 : clause_depth c = 1
  · simp [e1]
  · by_cases e2 : clause_depth c = 2
    · simp [e1, e2]
    · have e3 : 3 ≤ clause_depth c := by omega
      simp [e1, e2, e3]

theorem clause_score_refines (c e : Str) :
    compute_clause_match_score c e = specClauseScore c e := by
  unfold compute_clause_match_score specClauseScore
  by_cases hce : c = e
  · simp [hce]
  · simp only [if_neg hce]
    by_cases h1 : IsDottedParent c e
    · have hb : List.isPrefixOf (c ++ ['.']) e = true := (isPrefixOf_dot_iff c e).mpr h1
      have hmin : min (specDepth c) (specDepth e) = specDepth c :=
        Nat.min_eq_left (Nat.le_of_lt h1.depth_lt)
      simp [hb, prefixDepthScore_eq, h1, hmin]
    · have hb : List.isPrefixOf (c ++ ['.']) e = false := by
        rw [Bool.eq_false_iff]
        exact fun hc => h1 ((isPrefixOf_dot_iff c e).mp hc)
      by_cases h2 : IsDottedParent e c
      · have hb2 : List.isPrefixOf (e ++ ['.']) c = true := (isPrefixOf_dot_iff e c).mpr h2
        have hmin : min (specDepth c) (specDepth e) = specDepth e :=
          Nat.min_eq_right (Nat.le_of_lt h2.depth_lt)
        simp [hb, hb2, prefixDepthScore_eq, h1, h2, hmin]
      · have hb2 : List.isPrefixOf (e ++ ['.']) c = false := by
          rw [Bool.eq_false_iff]
          exact fun hc => h2 ((isPrefixOf_dot_iff e c).mp hc)
        simp [hb, hb2, h1, h2, segments]

/-- C1: on normalized clause ids the ClauseMatcher score is 1.0 on equal
strings, the depth score of the shorter clause when one is a strict
dotted-prefix of the other (0.5 / 0.6 / 0.75 for depth 1 / 2 / ≥ 3), 0.3
when only the first dotted segments agree, and 0.0 otherwise; in
particular score("1.4","1.4.32") = score("1.4.32","1.4") = 0.6,
score("1.4","1.5") = 0.3, score("2.1","1.1") = 0.0,
score("1.4","1.4") = 1.0. -/
theorem clause_matcher_score_spec :
    (∀ c e : Str, isClauseStr c = true → isClauseStr e = true →
        compute_clause_match_score c e = specClauseScore c e) ∧
    compute_clause_match_score "1.4".toList "1.4.32".toList = 3/5 ∧
    compute_clause_match_score "1.4.32".toList "1.4".toList = 3/5 ∧
    compute_clause_match_score "1.4".toList "1.5".toList = 3/10 ∧
    compute_clause_match_score "2.1".toList "1.1".toList = 0 ∧
    compute_clause_match_score "1.4".toList "1.4".toList = 1 :=
  ⟨fun c e _ _ => clause_score_refines c e, rfl, rfl, rfl, rfl, rfl⟩

/-- Witness for C1 at cited = "1.4", expected = "1.4.32". -/
theorem clause_matcher_score_spec_witness :
    isClauseStr "1.4".toList = true ∧ isClauseStr "1.4.32".toList = true ∧
    compute_clause_match_score "1.4".toList "1.4.32".toList =
      specClauseScore "1.4".toList "1.4.32".toList :=
  ⟨rfl, rfl, clause_matcher_score_spec.1 "1.4".toList "1.4.32".toList rfl rfl⟩

/-- C8: ClauseNormalizer returns exactly the trim/strip/collapse/strip
processing result when that result matches `^\d+(\.\d+)*$`, and the `None`
sentinel otherwise (a value, never an exception — the embedding is a total
function); "Clause 1..4." normalizes to "1.4" while "abc", "." and ""
yield the sentinel. -/
theorem clause_normalizer_spec :
    (∀ s : Str,
        (isClauseStr (processedOf s) = true ∧ normalize_clause s = some (processedOf s)) ∨
        (isClauseStr (processedOf s) = false ∧ normalize_clause s = none)) ∧
    normalize_clause "Clause 1..4.".toList = some "1.4".toList ∧
    normalize_clause "abc".toList = none ∧
    normalize_clause ".".toList = none ∧
    normalize_clause "".toList = none := by
  refine ⟨?_, rfl, rfl, rfl, rfl⟩
  intro s
  by_cases hs : s.isEmpty
  · right
    have hnil : s = [] := by simpa using hs
    subst hnil
    exact ⟨rfl, rfl⟩
  · have hdef : normalize_clause s =
        if isClauseStr (processedOf s) then some (processedOf s) else none := by
      unfold normalize_clause processedOf
      simp [hs]
    by_cases hv : isClauseStr (processedOf s) = true
    · exact Or.inl ⟨hv, by rw [hdef]; simp [hv]⟩
    · have hv' : isClauseStr (processedOf s) = false := by simpa using hv
      exact Or.inr ⟨hv', by rw [hdef]; simp [hv']⟩

/-! ### Lemmas for the citation grader -/

theorem clause_score_nonneg (c e : Str) : 0 ≤ compute_clause_match_score c e := by
  rw [clause_score_refines]
  unfold specClauseScore depthScore
  split
  · norm_num
  · split
    · split
      · norm_num
      · split
        · norm_num
        · norm_num
    · split
      · norm_num
      · norm_num

theorem foldl_max_le_init (l : List ℚ) (a : ℚ) : a ≤ l.foldl max a := by
  induction l generalizing a with
  | nil => exact le_refl a
  | cons x xs ih => exact le_trans (le_max_left a x) (ih (max a x))

theorem le_foldl_max (l : List ℚ) (a x : ℚ) (hx : x ∈ l) : x ≤ l.foldl max a := by
  induction l generalizing a with
  | nil => cases hx
  | cons y ys ih =>
    rcases List.mem_cons.mp hx with rfl | h
    · exact le_trans (le_max_right a x) (foldl_max_le_init ys (max a x))
    · exact ih (max a y) h

theorem foldl_max_mem (l : List ℚ) (a : ℚ) : l.foldl max a = a ∨ l.foldl max a ∈ l := by
  induction l generalizing a with
  | nil => exact Or.inl rfl
  | cons y ys ih =>
    rcases ih (max a y) with h | h
    · rcases le_total a y with hy | hy
      · right
        rw [List.foldl_cons, h, max_eq_right hy]
        exact List.mem_cons_self y ys
      · left
        rw [List.foldl_cons, h, max_eq_left hy]
    · exact Or.inr (List.mem_cons_of_mem y h)

theorem best_match_score_eq (es : List Str) (c : Str) :
    best_match_score es c = (es.map (compute_clause_match_score c)).foldl max 0 := by
  unfold best_match_score
  rw [List.foldl_map]
  congr 1
  funext b e
  rcases lt_or_ge b (compute_clause_match_score c e) with h | h
  · simp [h, max_eq_right h.le]
  · simp [not_lt.mpr h, max_eq_left h]

theorem le_best_match_score (es : List Str) (c e : Str) (he : e ∈ es) :
    compute_clause_match_score c e ≤ best_match_score es c := by
  rw [best_match_score_eq]
  exact le_foldl_max _ 0 _ (List.mem_map_of_mem _ he)

theorem best_match_score_attained (es : List Str) (c : Str) (hes : es ≠ []) :
    ∃ e ∈ es, best_match_score es c = compute_clause_match_score c e := by
  rcases foldl_max_mem (es.map (compute_clause_match_score c)) 0 with h | h
  · obtain ⟨e, he⟩ := List.exists_mem_of_ne_nil es hes
    refine ⟨e, he, ?_⟩
    have h1 : compute_clause_match_score c e ≤ best_match_score es c :=
      le_best_match_score es c e he
    have h2 := clause_score_nonneg c e
    have h0 : best_match_score es c = 0 := by rw [best_match_score_eq, h]
    rw [h0]
    exact le_antisymm h2 (h0 ▸ h1)
  · rw [best_match_score_eq]
    obtain ⟨e, he, hee⟩ := List.mem_map.mp h
    exact ⟨e, he, hee.symm⟩

theorem le_pyListMax (l : List ℚ) (d x : ℚ) (hx : x ∈ l) : x ≤ pyListMax l d := by
  cases l with
  | nil => cases hx
  | cons y ys =>
    unfold pyListMax
    rcases List.mem_cons.mp hx with rfl | h
    · exact foldl_max_le_init ys x
    · exact le_foldl_max ys y x h

theorem pyListMax_mem (l : List ℚ) (d : ℚ) (hl : l ≠ []) : pyListMax l d ∈ l := by
  cases l with
  | nil => exact absurd rfl hl
  | cons y ys =>
    show List.foldl max y ys ∈ y :: ys
    rcases foldl_max_mem ys y with h | h
    · rw [h]
      exact List.mem_cons_self y ys
    · exact List.mem_cons_of_mem y h

theorem grade_main_eq (cited : List Str) (ec : Str)
    (hc : citedSetOf cited ≠ []) (he : expectedSetOf ec ≠ []) :
    grade_citation_accuracy cited (some ec) =
      ⟨pyListMax ((citedSetOf cited).map (best_match_score (expectedSetOf ec))) 0,
       decide (3/4 ≤
         pyListMax ((citedSetOf cited).map (best_match_score (expectedSetOf ec))) 0)⟩ := by
  have hcne : cited ≠ [] := by
    rintro rfl
    exact hc rfl
  have hecne : ec ≠ [] := by
    rintro rfl
    exact he rfl
  unfold grade_citation_accuracy
  simp [List.isEmpty_iff, hcne, hecne, hc, he]

/-- C6: with at least one cited and one expected clause surviving
normalization, the grader's accuracy is the maximum over cited clauses of
the best ClauseMatcher score against the comma-parsed expected clauses
(bounded above by it and attained by some pair), and isCorrect holds
exactly when accuracy ≥ 0.75. -/
theorem citation_grader_spec (cited : List Str) (ec : Str)
    (hc : citedSetOf cited ≠ []) (he : expectedSetOf ec ≠ []) :
    (∀ c ∈ citedSetOf cited, ∀ e ∈ expectedSetOf ec,
        compute_clause_match_score c e ≤
          (grade_citation_accuracy cited (some ec)).citation_accuracy) ∧
    (∃ c ∈ citedSetOf cited, ∃ e ∈ expectedSetOf ec,
        (grade_citation_accuracy cited (some ec)).citation_accuracy =
          compute_clause_match_score c e) ∧
    ((grade_citation_accuracy cited (some ec)).correct_clause_ref = true ↔
        3/4 ≤ (grade_citation_accuracy cited (some ec)).citation_accuracy) := by
  rw [grade_main_eq cited ec hc he]
  refine ⟨?_, ?_, ?_⟩
  · intro c hcm e hem
    exact le_trans (le_best_match_score _ c e hem)
      (le_pyListMax _ 0 _ (List.mem_map_of_mem _ hcm))
  · have hmem := pyListMax_mem ((citedSetOf cited).map (best_match_score (expectedSetOf ec))) 0
      (by simpa using hc)
    obtain ⟨c, hcm, hcc⟩ := List.mem_map.mp hmem
    obtain ⟨e, hem, hee⟩ := best_match_score_attained (expectedSetOf ec) c he
    exact ⟨c, hcm, e, hem, by rw [← hcc, hee]⟩
  · simp

/-- Witness for C6 at cited = ["1.4"], expected = "1.4". -/
theorem citation_grader_spec_witness :
    citedSetOf ["1.4".toList] ≠ [] ∧ expectedSetOf "1.4".toList ≠ [] ∧
    ((grade_citation_accuracy ["1.4".toList] (some "1.4".toList)).correct_clause_ref = true ↔
        3/4 ≤ (grade_citation_accuracy ["1.4".toList] (some "1.4".toList)).citation_accuracy) :=
  ⟨by decide, by decide,
   (citation_grader_spec ["1.4".toList] "1.4".toList (by decide) (by decide)).2.2⟩

/-- C7: the degenerate inputs of the grader are explicit result values
(the embedding is total — no exceptions), with the no-citations check
first: empty cited list → (0.0, false) for every expected string; missing
(`None`) or empty expected → (0.5, false); every cited clause failing
normalization (with a usable expected set) → (0.0, false); every expected
clause failing normalization → (0.5, false). -/
theorem citation_grader_degenerate_spec :
    (∀ exp : Option Str, grade_citation_accuracy [] exp = ⟨0, false⟩) ∧
    (∀ cited : List Str, cited ≠ [] →
        grade_citation_accuracy cited none = ⟨1/2, false⟩ ∧
        grade_citation_accuracy cited (some []) = ⟨1/2, false⟩) ∧
    (∀ (cited : List Str) (ec : Str), expectedSetOf ec ≠ [] → citedSetOf cited = [] →
        grade_citation_accuracy cited (some ec) = ⟨0, false⟩) ∧
    (∀ (cited : List Str) (ec : Str), cited ≠ [] → ec ≠ [] → expectedSetOf ec = [] →
        grade_citation_accuracy cited (some ec) = ⟨1/2, false⟩) := by
  refine ⟨?_, ?_, ?_, ?_⟩
  · intro exp
    unfold grade_citation_accuracy
    simp
  · intro cited hcne
    constructor
    · unfold grade_citation_accuracy
      simp [List.isEmpty_iff, hcne]
    · unfold grade_citation_accuracy
      simp [List.isEmpty_iff, hcne]
  · intro cited ec he hcset
    by_cases hcne : cited = []
    · subst hcne
      unfold grade_citation_accuracy
      simp
    · have hecne : ec ≠ [] := by
        rintro rfl
        exact he rfl
      unfold grade_citation_accuracy
      simp [List.isEmpty_iff, hcne, hecne, he, hcset]
  · intro cited ec hcne hecne heset
    unfold grade_citation_accuracy
    simp [List.isEmpty_iff, hcne, hecne, heset]

/-- Witness for C7: one concrete instance of each degenerate case. -/
theorem citation_grader_degenerate_spec_witness :
    grade_citation_accuracy [] (some "1.4".toList) = ⟨0, false⟩ ∧
    grade_citation_accuracy ["1.4.32".toList] (some []) = ⟨1/2, false⟩ ∧
    grade_citation_accuracy ["abc".toList] (some "1.4".toList) = ⟨0, false⟩ ∧
    grade_citation_accuracy ["1.4".toList] (some "abc".toList) = ⟨1/2, false⟩ :=
  ⟨citation_grader_degenerate_spec.1 (some "1.4".toList),
   (citation_grader_degenerate_spec.2.1 ["1.4.32".toList] (by decide)).2,
   citation_grader_degenerate_spec.2.2.1 ["abc".toList] "1.4".toList (by decide) (by decide),
   citation_grader_degenerate_spec.2.2.2 ["1.4".toList] "abc".toList
     (by decide) (by decide) (by decide)⟩

/-! ### Lemmas for the rerank / quota engine -/

theorem stripRank_rankUpdate (c : Candidate) (n : Nat) :
    stripRank { c with RANK := n } = stripRank c := rfl

theorem map_stripRank_renumberFrom : ∀ (i : Nat) (l : List Candidate),
    (renumberFrom i l).map stripRank = l.map stripRank := by
  intro i l
  induction l generalizing i with
  | nil => rfl
  | cons c cs ih => simp [renumberFrom, stripRank_rankUpdate, ih]

theorem length_renumberFrom : ∀ (i : Nat) (l : List Candidate),
    (renumberFrom i l).length = l.length := by
  intro i l
  induction l generalizing i with
  | nil => rfl
  | cons c cs ih => simp [renumberFrom, ih]

theorem map_rank_renumberFrom : ∀ (i : Nat) (l : List Candidate),
    (renumberFrom i l).map Candidate.RANK = List.range' (i + 1) l.length := by
  intro i l
  induction l generalizing i with
  | nil => rfl
  | cons c cs ih => simp [renumberFrom, List.range', ih]

theorem mem_renumberFrom {b : Candidate} : ∀ {i : Nat} {l : List Candidate},
    b ∈ renumberFrom i l → ∃ y ∈ l, ∃ j, b = { y with RANK := j } := by
  intro i l
  induction l generalizing i with
  | nil => intro h; cases h
  | cons c cs ih =>
    intro h
    rcases List.mem_cons.mp h with rfl | h
    · exact ⟨c, List.mem_cons_self c cs, i + 1, rfl⟩
    · obtain ⟨y, hy, j, hj⟩ := ih h
      exact ⟨y, List.mem_cons_of_mem c hy, j, hj⟩

theorem countP_renumberFrom (p : Candidate → Bool)
    (hp : ∀ (c : Candidate) (n : Nat), p { c with RANK := n } = p c) :
    ∀ (i : Nat) (l : List Candidate), (renumberFrom i l).countP p = l.countP p := by
  intro i l
  induction l generalizing i with
  | nil => rfl
  | cons c cs ih => simp [renumberFrom, List.countP_cons, hp, ih]

theorem pairwise_scoreGE_renumberFrom {l : List Candidate}
    (h : l.Pairwise (fun a b => b.RERANK_SCORE ≤ a.RERANK_SCORE)) (i : Nat) :
    (renumberFrom i l).Pairwise (fun a b => b.RERANK_SCORE ≤ a.RERANK_SCORE) := by
  induction l generalizing i with
  | nil => exact List.Pairwise.nil
  | cons c cs ih =>
    rcases List.pairwise_cons.mp h with ⟨hc, hcs⟩
    refine List.pairwise_cons.mpr ⟨?_, ih hcs (i + 1)⟩
    intro b hb
    obtain ⟨y, hy, j, hj⟩ := mem_renumberFrom hb
    subst hj
    exact hc y hy

theorem rerankLE_trans : ∀ a b c : Candidate,
    rerankLE a b → rerankLE b c → rerankLE a c := by
  intro a b c hab hbc
  simp only [rerankLE, decide_eq_true_eq] at *
  exact le_trans hbc hab

theorem rerankLE_total : ∀ a b : Candidate, rerankLE a b || rerankLE b a := by
  intro a b
  simp only [rerankLE, Bool.or_eq_true, decide_eq_true_eq]
  exact le_total b.RERANK_SCORE a.RERANK_SCORE

theorem sorted_by_score_mergeSort (l : List Candidate) :
    (l.mergeSort rerankLE).Pairwise (fun a b => b.RERANK_SCORE ≤ a.RERANK_SCORE) := by
  have h := List.sorted_mergeSort rerankLE_trans rerankLE_total l
  exact h.imp (fun {a b} hab => by
    simpa [rerankLE, decide_eq_true_eq] using hab)

theorem pred_trichotomy (c : Candidate) :
    (isNormText c = true ∧ isCText c = false ∧ isNonText c = false) ∨
    (isNormText c = false ∧ isCText c = true ∧ isNonText c = false) ∨
    (isNormText c = false ∧ isCText c = false ∧ isNonText c = true) := by
  unfold isNormText isCText isNonText
  cases h1 : (c.CONTENT_TYPE == "text_chunk") <;>
    cases h2 : (c.KG_CLASS == "C") <;> simp

theorem isCText_false_of_normText {c : Candidate} (h : isNormText c = true) :
    isCText c = false := by
  rcases pred_trichotomy c with ⟨_, h2, _⟩ | ⟨h1, _, _⟩ | ⟨h1, _, _⟩
  · exact h2
  · rw [h] at h1; cases h1
  · rw [h] at h1; cases h1

theorem isCText_false_of_nonText {c : Candidate} (h : isNonText c = true) :
    isCText c = false := by
  rcases pred_trichotomy c with ⟨_, h2, h3⟩ | ⟨_, h2, h3⟩ | ⟨_, h2, _⟩
  · exact h2
  · rw [h] at h3; cases h3
  · exact h2

theorem categorize_fst (l : List Candidate) : (categorize l).1 = l.filter isNormText := by
  induction l with
  | nil => rfl
  | cons c cs ih =>
    by_cases ht : c.CONTENT_TYPE = "text_chunk"
    · by_cases hab : c.KG_CLASS = "A" ∨ c.KG_CLASS = "B"
      · have hp : isNormText c = true := by
          rcases hab with h | h <;> simp [isNormText, ht, h]
        simp [categorize, ht, hab, List.filter_cons, hp, ih]
      · by_cases hc : c.KG_CLASS = "C"
        · have hp : isNormText c = false := by simp [isNormText, ht, hc]
          simp [categorize, ht, hab, hc, List.filter_cons, hp, ih]
        · have hp : isNormText c = true := by simp [isNormText, ht, hc]
          simp [categorize, ht, hab, hc, List.filter_cons, hp, ih]
    · have hp : isNormText c = false := by simp [isNormText, ht]
      simp [categorize, ht, List.filter_cons, hp, ih]

theorem categorize_snd_fst (l : List Candidate) :
    (categorize l).2.1 = l.filter isCText := by
  induction l with
  | nil => rfl
  | cons c cs ih =>
    by_cases ht : c.CONTENT_TYPE = "text_chunk"
    · by_cases hab : c.KG_CLASS = "A" ∨ c.KG_CLASS = "B"
      · have hp : isCText c = false := by
          rcases hab with h | h <;> simp [isCText, ht, h]
        simp [categorize, ht, hab, List.filter_cons, hp, ih]
      · by_cases hc : c.KG_CLASS = "C"
        · have hp : isCText c = true := by simp [isCText, ht, hc]
          simp [categorize, ht, hab, hc, List.filter_cons, hp, ih]
        · have hp : isCText c = false := by simp [isCText, ht, hc]
          simp [categorize, ht, hab, hc, List.filter_cons, hp, ih]
    · have hp : isCText c = false := by simp [isCText, ht]
      simp [categorize, ht, List.filter_cons, hp, ih]

theorem categorize_snd_snd (l : List Candidate) :
    (categorize l).2.2 = l.filter isNonText := by
  induction l with
  | nil => rfl
  | cons c cs ih =>
    by_cases ht : c.CONTENT_TYPE = "text_chunk"
    · have hp : isNonText c = false := by simp [isNonText, ht]
      by_cases hab : c.KG_CLASS = "A" ∨ c.KG_CLASS = "B"
      · simp [categorize, ht, hab, List.filter_cons, hp, ih]
      · by_cases hc : c.KG_CLASS = "C"
        · simp [categorize, ht, hab, hc, List.filter_cons, hp, ih]
        · simp [categorize, ht, hab, hc, List.filter_cons, hp, ih]
    · have hp : isNonText c = true := by simp [isNonText, ht]
      simp [categorize, ht, List.filter_cons, hp, ih]

theorem filter_three_perm (l : List Candidate) :
    List.Perm (l.filter isNormText ++ l.filter isCText ++ l.filter isNonText) l := by
  induction l with
  | nil => simp
  | cons c cs ih =>
    rcases pred_trichotomy c with ⟨h1, h2, h3⟩ | ⟨h1, h2, h3⟩ | ⟨h1, h2, h3⟩
    · simpa [List.filter_cons, h1, h2, h3] using ih.cons c
    · simp only [List.filter_cons, h1, h2, h3, cond_true, cond_false]
      have s1 : List.Perm
          (cs.filter isNormText ++ c :: cs.filter isCText ++ cs.filter isNonText)
          ((c :: (cs.filter isNormText ++ cs.filter isCText)) ++ cs.filter isNonText) :=
        (List.perm_middle).append_right _
      exact s1.trans (by simpa using ih.cons c)
    · simp only [List.filter_cons, h1, h2, h3, cond_true, cond_false]
      have s1 : List.Perm
          (cs.filter isNormText ++ cs.filter isCText ++ c :: cs.filter isNonText)
          (c :: (cs.filter isNormText ++ cs.filter isCText ++ cs.filter isNonText)) :=
        List.perm_middle
      exact s1.trans (ih.cons c)

theorem quota_multiset_le (l : List Candidate) :
    ((quotaBase l : List Candidate) : Multiset Candidate) +
      ((quotaPool l : List Candidate) : Multiset Candidate) ≤ (l : Multiset Candidate) := by
  have h1 : (((normativeTextOf l).take (normativeToAdd l) : List Candidate) : Multiset Candidate) +
      (((normativeTextOf l).drop (normativeToAdd l) : List Candidate) : Multiset Candidate) =
      ((normativeTextOf l : List Candidate) : Multiset Candidate) := by
    rw [Multiset.coe_add, List.take_append_drop]
  have h2 : (((unknownNontextOf l).take (unknownToAdd l) : List Candidate) : Multiset Candidate) +
      (((unknownNontextOf l).drop (unknownToAdd l) : List Candidate) : Multiset Candidate) =
      ((unknownNontextOf l : List Candidate) : Multiset Candidate) := by
    rw [Multiset.coe_add, List.take_append_drop]
  have h3 : (((nonNormativeTextOf l).take MAX_NON_NORMATIVE_TEXT : List Candidate) :
        Multiset Candidate) ≤
      ((nonNormativeTextOf l : List Candidate) : Multiset Candidate) :=
    Multiset.coe_le.mpr (List.take_sublist _ _).subperm
  have h4 : ((normativeTextOf l : List Candidate) : Multiset Candidate) +
      ((nonNormativeTextOf l : List Candidate) : Multiset Candidate) +
      ((unknownNontextOf l : List Candidate) : Multiset Candidate) =
      (l : Multiset Candidate) := by
    rw [Multiset.coe_add, Multiset.coe_add]
    refine Multiset.coe_eq_coe.mpr ?_
    rw [normativeTextOf, nonNormativeTextOf, unknownNontextOf,
        categorize_fst, categorize_snd_fst, categorize_snd_snd]
    exact filter_three_perm l
  calc ((quotaBase l : List Candidate) : Multiset Candidate) +
        ((quotaPool l : List Candidate) : Multiset Candidate)
      = ((normativeTextOf l : List Candidate) : Multiset Candidate) +
          ((unknownNontextOf l : List Candidate) : Multiset Candidate) +
          (((nonNormativeTextOf l).take MAX_NON_NORMATIVE_TEXT : List Candidate) :
            Multiset Candidate) := by
        unfold quotaBase quotaPool
        simp only [← Multiset.coe_add] at *
        rw [← h1, ← h2]
        abel
    _ ≤ ((normativeTextOf l : List Candidate) : Multiset Candidate) +
          ((unknownNontextOf l : List Candidate) : Multiset Candidate) +
          ((nonNormativeTextOf l : List Candidate) : Multiset Candidate) :=
        add_le_add_left h3 _
    _ = (l : Multiset Candidate) := by
        rw [← h4]
        abel

theorem quotaFilled_multiset_le (l : List Candidate) :
    ((quotaFilled l : List Candidate) : Multiset Candidate) ≤ (l : Multiset Candidate) := by
  unfold quotaFilled
  by_cases hr : 0 < remainingSlots l
  · rw [if_pos hr]
    refine le_trans ?_ (quota_multiset_le l)
    rw [← Multiset.coe_add]
    refine add_le_add_left ?_ _
    refine Multiset.coe_le.mpr ?_
    exact (List.take_sublist _ _).subperm.trans (List.mergeSort_perm _ _).subperm
  · rw [if_neg hr]
    refine le_trans ?_ (quota_multiset_le l)
    exact le_self_add

theorem quota_strip_subperm (l : List Candidate) :
    List.Subperm ((apply_quota_selection l).map stripRank) (l.map stripRank) := by
  unfold apply_quota_selection
  by_cases hl : l.isEmpty = true
  · rw [if_pos hl]
    simp
  · rw [if_neg hl, map_stripRank_renumberFrom]
    rw [← Multiset.coe_le]
    have h1 : List.Perm (((quotaFilled l).mergeSort rerankLE).map stripRank)
        ((quotaFilled l).map stripRank) := (List.mergeSort_perm _ _).map _
    rw [Multiset.coe_eq_coe.mpr h1]
    have h3 := Multiset.map_le_map (f := stripRank) (quotaFilled_multiset_le l)
    simpa [Multiset.map_coe] using h3

theorem quotaBase_length_le (l : List Candidate) : (quotaBase l).length ≤ 6 := by
  unfold quotaBase normativeToAdd unknownToAdd MIN_NORMATIVE_TEXT MIN_UNKNOWN_NONTEXT
  simp only [List.length_append, List.length_take]
  omega

theorem quotaFilled_length_le (l : List Candidate) :
    (quotaFilled l).length ≤ KG_FINAL_K := by
  have hb := quotaBase_length_le l
  have hrs : remainingSlots l = KG_FINAL_K - (quotaBase l).length := rfl
  unfold quotaFilled
  by_cases hr : 0 < remainingSlots l
  · rw [if_pos hr]
    simp only [List.length_append, List.length_take]
    unfold KG_FINAL_K at *
    omega
  · rw [if_neg hr]
    unfold KG_FINAL_K
    omega

/-- C2: for every input list the quota selection returns at most
`KG_FINAL_K` items, every returned item is an input item (identity modulo
the renumbered `RANK` field), the empty input returns the empty output,
and no padding is ever added (the output is never longer than the
input). -/
theorem quota_selection_bounds (l : List Candidate) :
    (apply_quota_selection l).length ≤ KG_FINAL_K ∧
    (∀ x ∈ apply_quota_selection l, stripRank x ∈ l.map stripRank) ∧
    apply_quota_selection [] = ([] : List Candidate) ∧
    (apply_quota_selection l).length ≤ l.length := by
  have hsub := quota_strip_subperm l
  refine ⟨?_, ?_, rfl, ?_⟩
  · unfold apply_quota_selection
    by_cases hl : l.isEmpty = true
    · rw [if_pos hl]
      simp [KG_FINAL_K]
    · rw [if_neg hl, length_renumberFrom, List.length_mergeSort]
      exact quotaFilled_length_le l
  · intro x hx
    exact hsub.subset (List.mem_map_of_mem _ hx)
  · have := hsub.length_le
    simpa using this

/-- Witness for C2 at a one-element input whose single candidate is
returned with rank 1. -/
theorem quota_selection_bounds_witness :
    stripRank (⟨"a", "text_chunk", "A", 0, 1, 0, 0⟩ : Candidate) ∈
      ([⟨"a", "text_chunk", "A", 0, 0, 0, 0⟩] : List Candidate).map stripRank :=
  (quota_selection_bounds [⟨"a", "text_chunk", "A", 0, 0, 0, 0⟩]).2.1
    ⟨"a", "text_chunk", "A", 0, 1, 0, 0⟩
    (by simp [apply_quota_selection, quotaFilled, quotaBase, quotaPool, remainingSlots,
      normativeTextOf, nonNormativeTextOf, unknownNontextOf, normativeToAdd, unknownToAdd,
      categorize, renumberFrom, KG_FINAL_K, MIN_NORMATIVE_TEXT, MIN_UNKNOWN_NONTEXT,
      MAX_NON_NORMATIVE_TEXT])

theorem quotaBase_countP_norm (l : List Candidate)
    (h : MIN_NORMATIVE_TEXT ≤ l.countP isNormText) :
    MIN_NORMATIVE_TEXT ≤ (quotaBase l).countP isNormText := by
  unfold quotaBase
  rw [List.countP_append]
  have hmem : ∀ c ∈ (normativeTextOf l).take (normativeToAdd l), isNormText c = true := by
    intro c hc
    have hc' := List.mem_of_mem_take hc
    rw [normativeTextOf, categorize_fst] at hc'
    exact List.of_mem_filter hc'
  have hlen : ((normativeTextOf l).take (normativeToAdd l)).countP isNormText =
      ((normativeTextOf l).take (normativeToAdd l)).length :=
    List.countP_eq_length.mpr hmem
  have hflen : MIN_NORMATIVE_TEXT ≤ (normativeTextOf l).length := by
    rw [normativeTextOf, categorize_fst, ← List.countP_eq_length_filter]
    exact h
  rw [hlen, List.length_take]
  unfold normativeToAdd MIN_NORMATIVE_TEXT at *
  omega

/-- C3: when the input holds at least `MIN_NORMATIVE_TEXT` normative-text
candidates (text chunks of class A, B or Unknown), the quota selection
keeps at least `MIN_NORMATIVE_TEXT` of them. -/
theorem quota_min_normative (l : List Candidate)
    (h : MIN_NORMATIVE_TEXT ≤ l.countP isNormText) :
    MIN_NORMATIVE_TEXT ≤ (apply_quota_selection l).countP isNormText := by
  have hlne : l ≠ [] := by
    rintro rfl
    simp [MIN_NORMATIVE_TEXT] at h
  have hl : ¬(l.isEmpty = true) := by simp [List.isEmpty_iff, hlne]
  unfold apply_quota_selection
  rw [if_neg hl]
  rw [countP_renumberFrom isNormText (fun c n => rfl)]
  rw [(List.mergeSort_perm (quotaFilled l) rerankLE).countP_eq]
  have hbase := quotaBase_countP_norm l h
  unfold quotaFilled
  by_cases hr : 0 < remainingSlots l
  · rw [if_pos hr, List.countP_append]
    omega
  · rw [if_neg hr]
    exact hbase

/-- Witness for C3 at an input of four class-A text chunks. -/
theorem quota_min_normative_witness :
    MIN_NORMATIVE_TEXT ≤
      ([⟨"a", "text_chunk", "A", 0, 0, 0, 0⟩, ⟨"b", "text_chunk", "A", 0, 0, 0, 0⟩,
        ⟨"c", "text_chunk", "A", 0, 0, 0, 0⟩, ⟨"d", "text_chunk", "A", 0, 0, 0, 0⟩] :
        List Candidate).countP isNormText ∧
    MIN_NORMATIVE_TEXT ≤
      (apply_quota_selection
        [⟨"a", "text_chunk", "A", 0, 0, 0, 0⟩, ⟨"b", "text_chunk", "A", 0, 0, 0, 0⟩,
         ⟨"c", "text_chunk", "A", 0, 0, 0, 0⟩,
         ⟨"d", "text_chunk", "A", 0, 0, 0, 0⟩]).countP isNormText :=
  ⟨by decide,
   quota_min_normative
     [⟨"a", "text_chunk", "A", 0, 0, 0, 0⟩, ⟨"b", "text_chunk", "A", 0, 0, 0, 0⟩,
      ⟨"c", "text_chunk", "A", 0, 0, 0, 0⟩, ⟨"d", "text_chunk", "A", 0, 0, 0, 0⟩]
     (by decide)⟩

/-- C4: the quota selection never returns more than
`MAX_NON_NORMATIVE_TEXT` class-C text chunks, no matter how many the input
holds. -/
theorem quota_max_non_normative (l : List Candidate) :
    (apply_quota_selection l).countP isCText ≤ MAX_NON_NORMATIVE_TEXT := by
  unfold apply_quota_selection
  by_cases hl : l.isEmpty = true
  · rw [if_pos hl]
    simp [MAX_NON_NORMATIVE_TEXT]
  · rw [if_neg hl]
    rw [countP_renumberFrom isCText (fun c n => rfl)]
    rw [(List.mergeSort_perm (quotaFilled l) rerankLE).countP_eq]
    have hbase : (quotaBase l).countP isCText = 0 := by
      rw [List.countP_eq_zero]
      intro a ha
      rcases List.mem_append.mp ha with h | h
      · have ha' := List.mem_of_mem_take h
        rw [normativeTextOf, categorize_fst] at ha'
        simp [isCText_false_of_normText (List.of_mem_filter ha')]
      · have ha' := List.mem_of_mem_take h
        rw [unknownNontextOf, categorize_snd_snd] at ha'
        simp [isCText_false_of_nonText (List.of_mem_filter ha')]
    have hpool : (quotaPool l).countP isCText ≤ MAX_NON_NORMATIVE_TEXT := by
      unfold quotaPool
      rw [List.countP_append, List.countP_append]
      have hd1 : ((normativeTextOf l).drop (normativeToAdd l)).countP isCText = 0 := by
        rw [List.countP_eq_zero]
        intro a ha
        have ha' := List.mem_of_mem_drop ha
        rw [normativeTextOf, categorize_fst] at ha'
        simp [isCText_false_of_normText (List.of_mem_filter ha')]
      have hd2 : ((unknownNontextOf l).drop (unknownToAdd l)).countP isCText = 0 := by
        rw [List.countP_eq_zero]
        intro a ha
        have ha' := List.mem_of_mem_drop ha
        rw [unknownNontextOf, categorize_snd_snd] at ha'
        simp [isCText_false_of_nonText (List.of_mem_filter ha')]
      have ht : ((nonNormativeTextOf l).take MAX_NON_NORMATIVE_TEXT).countP isCText ≤
          MAX_NON_NORMATIVE_TEXT := by
        refine le_trans (List.countP_le_length isCText) ?_
        rw [List.length_take]
        exact min_le_left _ _
      omega
    unfold quotaFilled
    by_cases hr : 0 < remainingSlots l
    · rw [if_pos hr, List.countP_append]
      have htk : (((quotaPool l).mergeSort rerankLE).take (remainingSlots l)).countP isCText ≤
          (quotaPool l).countP isCText := by
        have h1 := (List.take_sublist (remainingSlots l)
          ((quotaPool l).mergeSort rerankLE)).countP_le (p := isCText)
        rw [(List.mergeSort_perm (quotaPool l) rerankLE).countP_eq] at h1
        exact h1
      omega
    · rw [if_neg hr, hbase]
      simp [MAX_NON_NORMATIVE_TEXT]

/-- C10: on an input of pairwise-distinct candidates (distinct modulo the
renumbered `RANK` field) the quota selection returns each candidate at
most once. -/
theorem quota_no_duplicates (l : List Candidate)
    (h : (l.map stripRank).Nodup) : ((apply_quota_selection l).map stripRank).Nodup := by
  obtain ⟨t, hperm, hsub⟩ := quota_strip_subperm l
  exact hperm.nodup_iff.mp (List.Nodup.sublist hsub h)

/-- Witness for C10 at a two-element duplicate-free input. -/
theorem quota_no_duplicates_witness :
    (([⟨"a", "text_chunk", "A", 0, 0, 0, 0⟩, ⟨"b", "text_chunk", "C", 0, 0, 0, 0⟩] :
        List Candidate).map stripRank).Nodup ∧
    ((apply_quota_selection
        [⟨"a", "text_chunk", "A", 0, 0, 0, 0⟩,
         ⟨"b", "text_chunk", "C", 0, 0, 0, 0⟩]).map stripRank).Nodup :=
  ⟨by decide,
   quota_no_duplicates
     [⟨"a", "text_chunk", "A", 0, 0, 0, 0⟩, ⟨"b", "text_chunk", "C", 0, 0, 0, 0⟩]
     (by decide)⟩

theorem kg_boost_eq_specAdjustment (c : Candidate) : kg_boost_of c = specAdjustment c := by
  unfold kg_boost_of specAdjustment
  by_cases ht : c.CONTENT_TYPE = "text_chunk"
  · by_cases hA : c.KG_CLASS = "A"
    · simp [ht, hA]
    · by_cases hB : c.KG_CLASS = "B"
      · simp [ht, hA, hB]
      · by_cases hC : c.KG_CLASS = "C"
        · simp [ht, hA, hB, hC]
        · simp [ht, hA, hB, hC, KG_NEUTRAL_UNKNOWN]
  · simp [ht, KG_NEUTRAL_UNKNOWN]

/-- C5: the reranker returns the input candidates (modulo the renumbered
`RANK`) with `RERANK_SCORE = SIMILARITY + adjustment`, where the
adjustment is the spec's table (boostA / boostB / penaltyC for text A/B/C,
0 for text Unknown, 0 for every non-text item whatever its class); the
output is sorted descending by `RERANK_SCORE`, ties keep the input order
(stable sort), ranks are renumbered 1..N, and no other field changes (the
permutation conjunct fixes every field except `RANK`). -/
theorem reranker_spec (l : List Candidate) :
    (∀ c : Candidate, kg_boost_of c = specAdjustment c) ∧
    List.Perm ((kg_rerank_candidates l).map stripRank)
      (l.map (fun c => stripRank { c with
          RERANK_SCORE := c.SIMILARITY + specAdjustment c,
          KG_BOOST := specAdjustment c })) ∧
    (kg_rerank_candidates l).Pairwise (fun a b => b.RERANK_SCORE ≤ a.RERANK_SCORE) ∧
    (kg_rerank_candidates l).map Candidate.RANK =
      List.range' 1 (kg_rerank_candidates l).length ∧
    (∀ a b : Candidate, List.Sublist [a, b] (l.map rerankOne) →
        a.RERANK_SCORE = b.RERANK_SCORE →
        List.Sublist [stripRank a, stripRank b] ((kg_rerank_candidates l).map stripRank)) := by
  have hone : ∀ c : Candidate, stripRank (rerankOne c) =
      stripRank { c with
          RERANK_SCORE := c.SIMILARITY + specAdjustment c,
          KG_BOOST := specAdjustment c } := by
    intro c
    simp [rerankOne, stripRank, kg_boost_eq_specAdjustment c]
  by_cases hl : l.isEmpty = true
  · have hnil : l = [] := by simpa [List.isEmpty_iff] using hl
    subst hnil
    refine ⟨kg_boost_eq_specAdjustment, by simp [kg_rerank_candidates],
      by simp [kg_rerank_candidates], by simp [kg_rerank_candidates], ?_⟩
    intro a b hab _
    simp at hab
  · unfold kg_rerank_candidates
    rw [if_neg hl]
    refine ⟨kg_boost_eq_specAdjustment, ?_, ?_, ?_, ?_⟩
    · rw [map_stripRank_renumberFrom]
      have h1 : List.Perm (((l.map rerankOne).mergeSort rerankLE).map stripRank)
          ((l.map rerankOne).map stripRank) := (List.mergeSort_perm _ _).map _
      refine h1.trans ?_
      rw [List.map_map]
      exact List.Perm.of_eq (List.map_congr_left (fun c _ => hone c))
    · exact pairwise_scoreGE_renumberFrom (sorted_by_score_mergeSort _) 0
    · rw [map_rank_renumberFrom, length_renumberFrom]
    · intro a b hab heq
      have hpair : List.Pairwise (fun x y => rerankLE x y = true) [a, b] := by
        refine List.pairwise_cons.mpr ⟨?_, List.pairwise_singleton _ _⟩
        intro y hy
        rcases List.mem_singleton.mp hy with rfl
        simp [rerankLE, heq]
      have hsub := List.sublist_mergeSort rerankLE_trans rerankLE_total hpair hab
      rw [map_stripRank_renumberFrom]
      exact hsub.map stripRank

/-- Witness for C5: two tied class-A text candidates keep their input
order in the reranked output. -/
theorem reranker_spec_witness :
    List.Sublist
      [stripRank (rerankOne ⟨"a", "text_chunk", "A", 0, 0, 0, 0⟩),
       stripRank (rerankOne ⟨"b", "text_chunk", "A", 0, 0, 0, 0⟩)]
      ((kg_rerank_candidates
        [⟨"a", "text_chunk", "A", 0, 0, 0, 0⟩,
         ⟨"b", "text_chunk", "A", 0, 0, 0, 0⟩]).map stripRank) :=
  (reranker_spec [⟨"a", "text_chunk", "A", 0, 0, 0, 0⟩,
      ⟨"b", "text_chunk", "A", 0, 0, 0, 0⟩]).2.2.2.2
    (rerankOne ⟨"a", "text_chunk", "A", 0, 0, 0, 0⟩)
    (rerankOne ⟨"b", "text_chunk", "A", 0, 0, 0, 0⟩)
    (List.Sublist.refl _) rfl

/-! ### The conditional-risk claim -/

theorem cited_classes_subset (retrieved : List RetrievedItem) (cited : List String) :
    ∀ k ∈ cited_classes retrieved cited, k ∈ retrieved.map RetrievedItem.kg_class := by
  intro k hk
  unfold cited_classes at hk
  obtain ⟨cid, _, hmap⟩ := List.mem_filterMap.mp hk
  obtain ⟨it, hfind, hkg⟩ := Option.map_eq_some'.mp hmap
  subst hkg
  exact List.mem_map_of_mem _ (List.mem_of_find?_eq_some hfind)

/-- C9: the conditional-risk metric is 1.0 when a class-B item is cited
and the answer holds conditional language, 0.0 when a class-B item is
cited without such language, and 1.0 whenever class-B items are not
involved at all (none retrieved, hence none cited). -/
theorem conditional_risk_spec (retrieved : List RetrievedItem) (cited : List String)
    (lang : Bool) :
    (0 < (cited_classes retrieved cited).count "B" →
        kg_conditional_risk retrieved cited lang = if lang then 1 else 0) ∧
    ((retrieved.map RetrievedItem.kg_class).count "B" = 0 →
        kg_conditional_risk retrieved cited lang = 1) := by
  constructor
  · intro h
    unfold kg_conditional_risk
    rw [if_pos h]
  · intro h
    have hc : (cited_classes retrieved cited).count "B" = 0 := by
      rw [List.count_eq_zero]
      intro hmem
      exact List.count_eq_zero.mp h (cited_classes_subset retrieved cited _ hmem)
    unfold kg_conditional_risk
    rw [if_neg (by omega), if_neg (by simp [h])]

/-- Witness for C9: a cited class-B item with conditional language scores
1.0. -/
theorem conditional_risk_spec_witness :
    0 < (cited_classes [⟨"c1", "B", "text_chunk"⟩] ["c1"]).count "B" ∧
    kg_conditional_risk [⟨"c1", "B", "text_chunk"⟩] ["c1"] true =
      if true then (1 : ℚ) else 0 :=
  ⟨by decide,
   (conditional_risk_spec [⟨"c1", "B", "text_chunk"⟩] ["c1"] true).1 (by decide)⟩

end Sparkie
